import Mathlib

/- Shallow embedding of the core text pipeline of the Rust-Local-LLAMA-Discord bot.

   Rust `String`s are modelled as `List Char`; Rust `str::len` (a byte count) is
   modelled as `List.length`, which agrees with it on ASCII text; none of the
   properties below depends on the difference.

   Embedded source:
   - src/handler.rs: `Prompts::make_markdown_message`,
     `Prompts::decouple_prompt_from_message`, the chunking loop of
     `Outputter::new_token`, and the `Outputter` state machine (`new`,
     `new_token`, `finish`, `on_error`, `sync_messages_with_chunks`) with the
     Discord transport abstracted to a list of message units (content plus a
     cancel-button flag) and the update timer to an explicit boolean;
   - src/generation.rs: one job of `make_thread` / `process_incoming_request`,
     with the flume result channel modelled by the list of successfully
     delivered tokens (a send succeeds while the receiver is still interested,
     modelled by a budget of successful send attempts) and the drain of the
     cancellation channel by a per-poll boolean observation. -/

/-- Rust str::strip_prefix on char lists: first argument is the pattern. -/
def stripPfx : List Char → List Char → Option (List Char)
  | [], s => some s
  | _ :: _, [] => none
  | x :: xs, y :: ys => if x = y then stripPfx xs ys else none

/-- Rust str::split_once on char lists: split at the first occurrence of pat. -/
def splitOnce : List Char → List Char → Option (List Char × List Char)
  | [], pat => if pat.isEmpty then some ([], []) else none
  | c :: cs, pat =>
    if pat.isPrefixOf (c :: cs) then some ([], (c :: cs).drop pat.length)
    else (splitOnce cs pat).map fun pr => (c :: pr.1, pr.2)

/-- The template placeholder string from src/handler.rs. -/
def PROMPT_PLACEHOLDER : List Char := "\x7b\x7bPROMPT\x7d\x7d".toList

/-- Rust str::split(' ') on char lists: always nonempty, keeps empty words. -/
def splitSpace : List Char → List (List Char)
  | [] => [[]]
  | c :: rest =>
    match splitSpace rest with
    | [] => [[c]]
    | w :: ws => if c = ' ' then [] :: w :: ws else (c :: w) :: ws

/-- Join word lists with a single space between consecutive elements. -/
def joinW : List (List Char) → List Char
  | [] => []
  | [w] => w
  | w :: w2 :: ws => w ++ ' ' :: joinW (w2 :: ws)

/-- The text contributed by a tail of words, each preceded by one space. -/
def flatWords : List (List Char) → List Char
  | [] => []
  | w :: ws => ' ' :: w ++ flatWords ws

/-- Markdown bold wrapper, format!("**…**"). -/
def bold (s : List Char) : List Char := '*' :: '*' :: s ++ ['*', '*']

/-- Markdown strike-through wrapper, format!("~~…~~"). -/
def strike (s : List Char) : List Char := '~' :: '~' :: s ++ ['~', '~']

/-- The Prompts struct from src/handler.rs. -/
structure Prompts where
  show_prompt_template : Bool
  processed : List Char
  user : List Char
  template : List Char
deriving DecidableEq

/-- Prompts::decouple_prompt_from_message from src/handler.rs. -/
def decouple_prompt_from_message (p : Prompts) (output : List Char) : List Char :=
  let ps := (splitOnce p.template PROMPT_PLACEHOLDER).getD ([], [])
  let pre := ps.1
  let suffix := ps.2
  let prompt := p.user
  match stripPfx pre output with
  | none => []
  | some message =>
    match stripPfx prompt message with
    | none => message
    | some response =>
      match stripPfx suffix response with
      | none => prompt
      | some response2 =>
        let newline := if suffix.getLast? = some '\n' then ['\n'] else []
        prompt ++ newline ++ response2

/-- Prompts::make_markdown_message from src/handler.rs. -/
def make_markdown_message (p : Prompts) (raw : List Char) : List Char :=
  let pair :=
    if !p.show_prompt_template then (decouple_prompt_from_message p raw, p.user)
    else (raw, p.processed)
  let message := pair.1
  let display_prompt := pair.2
  match stripPfx display_prompt message with
  | some msg => bold display_prompt ++ msg
  | none =>
    match stripPfx message display_prompt with
    | some ungenerated =>
      if message = [] then strike ungenerated
      else bold message ++ strike ungenerated
    | none => message

/-- Outputter::MESSAGE_CHUNK_SIZE from src/handler.rs. -/
def MESSAGE_CHUNK_SIZE : Nat := 1500

/-- One iteration of the chunking loop in Outputter::new_token: append the word
to the last chunk unless that chunk already exceeds the size threshold. -/
def pushWord (chunks : List (List Char)) (word : List Char) : List (List Char) :=
  match chunks.getLast? with
  | none => [word]
  | some last =>
    if MESSAGE_CHUNK_SIZE < last.length then chunks ++ [word]
    else chunks.dropLast ++ [last ++ ' ' :: word]

/-- The chunk partition computed by Outputter::new_token from the markdown view. -/
def chunkMessage (markdown : List Char) : List (List Char) :=
  (splitSpace markdown).foldl pushWord []

/-- Length of the longest space-delimited word of a string. -/
def maxWordLen (s : List Char) : Nat :=
  ((splitSpace s).map List.length).foldr max 0

/-- One delivered Discord message: its content and whether it carries the
cancel button (the only component the handler ever attaches). -/
structure MsgUnit where
  content : List Char
  hasCancel : Bool
deriving DecidableEq

/-- The per-job state of the Outputter struct from src/handler.rs (the Http
handle, user id and timing fields are external; prompts are a parameter). -/
structure Outputter where
  messages : List MsgUnit
  chunks : List (List Char)
  message : List Char
  in_terminal_state : Bool
deriving DecidableEq

/-- Outputter::new: the initial interaction response shows the struck-through
prompt and has no components. -/
def Outputter.new (p : Prompts) : Outputter :=
  { messages := [{ content := strike (if p.show_prompt_template then p.processed else p.user),
                   hasCancel := false }]
    chunks := []
    message := []
    in_terminal_state := false }

/-- add_cancel_button applied to the first message (Outputter::new_token). -/
def setFirstCancel : List MsgUnit → List MsgUnit
  | [] => []
  | m :: ms => { m with hasCancel := true } :: ms

/-- add_cancel_button applied to the last message (sync_messages_with_chunks). -/
def setLastCancel : List MsgUnit → List MsgUnit
  | [] => []
  | [m] => [{ m with hasCancel := true }]
  | m :: m2 :: ms => m :: setLastCancel (m2 :: ms)

/-- messages.iter_mut().zip(chunks.iter()).last(): overwrite the content of the
message at the last zipped index with the chunk at that index. -/
def editLastZip : List MsgUnit → List (List Char) → List MsgUnit
  | [], _ => []
  | m :: ms, [] => m :: ms
  | [m], c :: _ => [{ m with content := c }]
  | m :: m2 :: ms, c :: cs =>
    match cs with
    | [] => { m with content := c } :: m2 :: ms
    | c2 :: cs2 => m :: editLastZip (m2 :: ms) (c2 :: cs2)

/-- Outputter::sync_messages_with_chunks from src/handler.rs. -/
def sync_messages_with_chunks (s : Outputter) : Outputter :=
  let ms := editLastZip s.messages s.chunks
  if s.chunks.length ≤ ms.length then { s with messages := ms }
  else
    let cleared := ms.map fun m => { m with hasCancel := false }
    if cleared.isEmpty then { s with messages := cleared }
    else
      let appended :=
        cleared ++ (s.chunks.drop cleared.length).map fun c => { content := c, hasCancel := false }
      { s with messages := setLastCancel appended }

/-- Outputter::new_token from src/handler.rs; timerFired models whether the
update-interval check fires on this token. -/
def new_token (p : Prompts) (s : Outputter) (token : List Char) (timerFired : Bool) : Outputter :=
  if s.in_terminal_state then s
  else
    let ms := if s.message = [] then setFirstCancel s.messages else s.messages
    let message := s.message ++ token
    let chunks := chunkMessage (make_markdown_message p message)
    let s2 : Outputter := { s with messages := ms, message := message, chunks := chunks }
    if timerFired then sync_messages_with_chunks s2 else s2

/-- Outputter::finish from src/handler.rs: strip components everywhere, then
run one final sync pass; it never touches in_terminal_state. -/
def Outputter.finish (s : Outputter) : Outputter :=
  sync_messages_with_chunks
    { s with messages := s.messages.map fun m => { m with hasCancel := false } }

/-- Outputter::on_error from src/handler.rs: strike out every message and drop
the components; if there is no message to reply to, return early (leaving the
terminal flag unchanged); otherwise reply with the error text (a message
outside self.messages) and enter the terminal state. -/
def on_error (error_message : List Char) (s : Outputter) : Outputter :=
  let _ := error_message
  let ms := s.messages.map fun m => { content := strike m.content, hasCancel := false }
  if ms.isEmpty then { s with messages := ms }
  else { s with messages := ms, in_terminal_state := true }

/-- One caller-side event in a job's lifetime. -/
inductive OutEvent
  | tok (t : List Char) (timerFired : Bool)
  | finish
  | error (msg : List Char)

/-- Dispatch one event against the Outputter state. -/
def stepEvent (p : Prompts) (s : Outputter) : OutEvent → Outputter
  | .tok t b => new_token p s t b
  | .finish => Outputter.finish s
  | .error m => on_error m s

/-- Run a sequence of fragments (token text, timer-fired flag) from Outputter::new. -/
def runToks (p : Prompts) (toks : List (List Char × Bool)) : Outputter :=
  toks.foldl (fun s tb => new_token p s tb.1 tb.2) (Outputter.new p)

/-- The cancel-button flags of the delivered messages, in order. -/
def cancelFlags (ms : List MsgUnit) : List Bool := ms.map fun m => m.hasCancel

/-- How many delivered messages carry the cancel button. -/
def countCancel (ms : List MsgUnit) : Nat := (cancelFlags ms).count true

/-- The last delivered message exists and carries the cancel button. -/
def lastHasCancel (ms : List MsgUnit) : Prop := (cancelFlags ms).getLast? = some true

/-- generation::InferenceError from src/generation.rs. -/
inductive InferenceError
  | Cancelled
  | Custom (msg : List Char)
deriving DecidableEq

/-- generation::Token from src/generation.rs. -/
inductive GenToken
  | Token (t : List Char)
  | Error (e : InferenceError)
deriving DecidableEq

/-- llm::InferenceResponse, as matched in process_incoming_request. -/
inductive InferenceResponse
  | SnapshotToken (t : List Char)
  | PromptToken (t : List Char)
  | InferredToken (t : List Char)
  | EotToken

/-- The message of the InferenceError built when a token send fails. -/
def failedSendMsg : List Char := "Failed to send token to channel.".toList

/-- The job's flume result channel, seen from the sender: what was delivered
and how many send attempts were made. -/
structure ChanState where
  delivered : List GenToken
  attempts : Nat
deriving DecidableEq

/-- One flume send: it succeeds while the receiver is interested (the first
aliveFor attempts) and fails once the receiver is gone. -/
def trySend (aliveFor : Nat) (ch : ChanState) (t : GenToken) : ChanState × Bool :=
  if ch.attempts < aliveFor then
    ({ delivered := ch.delivered ++ [t], attempts := ch.attempts + 1 }, true)
  else
    ({ delivered := ch.delivered, attempts := ch.attempts + 1 }, false)

/-- The inference callback loop of process_incoming_request: for each backend
response, first drain the cancel channel and check this job's id (cancelObserved
gives the check's result for the i-th poll), then forward token text, aborting
on a failed send. Returns the channel state and the callback's error, if any. -/
def processResponses (cancelObserved : Nat → Bool) (aliveFor : Nat) :
    List InferenceResponse → Nat → ChanState → ChanState × Option InferenceError
  | [], _, ch => (ch, none)
  | r :: rs, i, ch =>
    if cancelObserved i then (ch, some .Cancelled)
    else
      match r with
      | .EotToken => processResponses cancelObserved aliveFor rs (i + 1) ch
      | .SnapshotToken t | .PromptToken t | .InferredToken t =>
        let sent := trySend aliveFor ch (GenToken.Token t)
        if sent.2 then processResponses cancelObserved aliveFor rs (i + 1) sent.1
        else (sent.1, some (.Custom failedSendMsg))

/-- process_incoming_request from src/generation.rs: run the callback loop; a
callback error wins, otherwise a backend-level error becomes Custom. -/
def process_incoming_request (cancelObserved : Nat → Bool) (aliveFor : Nat)
    (responses : List InferenceResponse) (backendError : Option (List Char)) :
    ChanState × Option InferenceError :=
  match processResponses cancelObserved aliveFor responses 0 { delivered := [], attempts := 0 } with
  | (ch, some e) => (ch, some e)
  | (ch, none) =>
    match backendError with
    | some m => (ch, some (InferenceError.Custom m))
    | none => (ch, none)

/-- One iteration of make_thread for one job: on an error result, try to send
it as a terminal Error token (the send itself may fail). Returns everything
delivered on the job's result channel. -/
def runJob (cancelObserved : Nat → Bool) (aliveFor : Nat)
    (responses : List InferenceResponse) (backendError : Option (List Char)) : List GenToken :=
  match process_incoming_request cancelObserved aliveFor responses backendError with
  | (ch, none) => ch.delivered
  | (ch, some e) => (trySend aliveFor ch (GenToken.Error e)).1.delivered

/-- Whether a delivered token is a text fragment. -/
def isFragment : GenToken → Bool
  | .Token _ => true
  | .Error _ => false

/-- The drain-and-check cancellation poll in process_incoming_request:
cancel_rx.drain().collect::<HashSet<_>>().contains(&request.message_id),
on the pending contents of the cancel channel. -/
def drainAndCheck (pending : List Nat) (message_id : Nat) : Bool × List Nat :=
  (pending.contains message_id, [])

/-- splitSpace never returns the empty list. -/
theorem splitSpace_ne_nil (s : List Char) : splitSpace s ≠ [] := by
  cases s with
  | nil => simp [splitSpace]
  | cons c rest =>
    simp only [splitSpace]
    split
    · simp
    · split <;> simp

/-- Unfolding equation for splitSpace on a cons. -/
theorem splitSpace_cons_eq (c : Char) (rest w : List Char) (ws : List (List Char))
    (h : splitSpace rest = w :: ws) :
    splitSpace (c :: rest) = if c = ' ' then [] :: w :: ws else (c :: w) :: ws := by
  simp only [splitSpace, h]

/-- joinW on a cons with nonempty tail. -/
theorem joinW_cons (w : List Char) (ws : List (List Char)) (h : ws ≠ []) :
    joinW (w :: ws) = w ++ ' ' :: joinW ws := by
  cases ws with
  | nil => exact absurd rfl h
  | cons w2 ws2 => rfl

/-- joinW of a nonempty list is head plus the space-prefixed tail words. -/
theorem joinW_eq_flat (w : List Char) (ws : List (List Char)) :
    joinW (w :: ws) = w ++ flatWords ws := by
  induction ws generalizing w with
  | nil => simp [joinW, flatWords]
  | cons w2 ws2 ih =>
    rw [joinW_cons w (w2 :: ws2) (by simp), ih w2]
    simp [flatWords]

/-- Joining the split on spaces reconstructs the string. -/
theorem joinW_splitSpace (s : List Char) : joinW (splitSpace s) = s := by
  induction s with
  | nil => rfl
  | cons c rest ih =>
    cases h : splitSpace rest with
    | nil => exact absurd h (splitSpace_ne_nil rest)
    | cons w ws =>
      rw [splitSpace_cons_eq c rest w ws h]
      rw [h] at ih
      by_cases hc : c = ' '
      · rw [if_pos hc, joinW_cons [] (w :: ws) (by simp)]
        subst hc
        simp [ih]
      · rw [if_neg hc]
        cases ws with
        | nil => simpa [joinW] using ih
        | cons w2 ws2 =>
          rw [joinW_cons (c :: w) (w2 :: ws2) (by simp)]
          rw [joinW_cons w (w2 :: ws2) (by simp)] at ih
          simp [ih]

/-- Splitting across an explicit separator concatenates the splits. -/
theorem splitSpace_append (a b : List Char) :
    splitSpace (a ++ ' ' :: b) = splitSpace a ++ splitSpace b := by
  induction a with
  | nil =>
    cases h : splitSpace b with
    | nil => exact absurd h (splitSpace_ne_nil b)
    | cons w ws =>
      rw [List.nil_append, splitSpace_cons_eq ' ' b w ws h, if_pos rfl]
      simp [splitSpace, h]
  | cons c a ih =>
    cases h : splitSpace a with
    | nil => exact absurd h (splitSpace_ne_nil a)
    | cons w ws =>
      have h2 : splitSpace (a ++ ' ' :: b) = w :: (ws ++ splitSpace b) := by
        rw [ih, h]
        simp
      rw [List.cons_append, splitSpace_cons_eq c _ w (ws ++ splitSpace b) h2,
          splitSpace_cons_eq c a w ws h]
      by_cases hc : c = ' ' <;> simp [hc]

/-- Words produced by splitSpace contain no space. -/
theorem splitSpace_no_space (s : List Char) : ∀ w ∈ splitSpace s, ' ' ∉ w := by
  induction s with
  | nil => simp [splitSpace]
  | cons c rest ih =>
    cases h : splitSpace rest with
    | nil => exact absurd h (splitSpace_ne_nil rest)
    | cons w ws =>
      rw [splitSpace_cons_eq c rest w ws h]
      rw [h] at ih
      by_cases hc : c = ' '
      · rw [if_pos hc]
        intro v hv
        rcases List.mem_cons.mp hv with rfl | hv
        · simp
        · exact ih v hv
      · rw [if_neg hc]
        intro v hv
        rcases List.mem_cons.mp hv with rfl | hv
        · intro hmem
          rcases List.mem_cons.mp hmem with hmem | hmem
          · exact hc hmem.symm
          · exact ih w (List.mem_cons_self w ws) hmem
        · exact ih v (List.mem_cons_of_mem w hv)

/-- A space-free string splits into exactly itself. -/
theorem splitSpace_of_no_space (w : List Char) (h : ' ' ∉ w) : splitSpace w = [w] := by
  induction w with
  | nil => rfl
  | cons c cs ih =>
    have hc : c ≠ ' ' := by
      intro hh
      exact h (by simp [hh])
    have hcs : ' ' ∉ cs := fun hm => h (by simp [hm])
    rw [splitSpace_cons_eq c cs cs [] (by simpa using ih hcs)]
    simp [fun hh : c = ' ' => hc hh]

/-- pushWord on an empty chunk list starts the first chunk. -/
theorem pushWord_nil (w : List Char) : pushWord [] w = [w] := rfl

/-- pushWord on a nonempty chunk list, by the last chunk. -/
theorem pushWord_snoc (xs : List (List Char)) (y w : List Char) :
    pushWord (xs ++ [y]) w =
      if MESSAGE_CHUNK_SIZE < y.length then (xs ++ [y]) ++ [w]
      else xs ++ [y ++ ' ' :: w] := by
  simp [pushWord, List.getLast?_concat, List.dropLast_concat]

/-- pushWord never returns the empty list. -/
theorem pushWord_ne_nil (cs : List (List Char)) (w : List Char) : pushWord cs w ≠ [] := by
  rcases List.eq_nil_or_concat cs with rfl | ⟨xs, y, rfl⟩
  · simp [pushWord_nil]
  · simp only [List.concat_eq_append]
    rw [pushWord_snoc]
    split <;> simp

/-- joinW over a snoc with nonempty front. -/
theorem joinW_snoc (xs : List (List Char)) (y : List Char) (h : xs ≠ []) :
    joinW (xs ++ [y]) = joinW xs ++ ' ' :: y := by
  induction xs with
  | nil => exact absurd rfl h
  | cons x xs ih =>
    cases xs with
    | nil => rfl
    | cons x2 xs2 =>
      rw [List.cons_append, joinW_cons x ((x2 :: xs2) ++ [y]) (by simp),
          ih (by simp), joinW_cons x (x2 :: xs2) (by simp)]
      simp

/-- pushWord adds exactly one space and one word to the joined text. -/
theorem joinW_pushWord (cs : List (List Char)) (w : List Char) (h : cs ≠ []) :
    joinW (pushWord cs w) = joinW cs ++ ' ' :: w := by
  rcases List.eq_nil_or_concat cs with rfl | ⟨xs, y, rfl⟩
  · exact absurd rfl h
  · simp only [List.concat_eq_append]
    rw [pushWord_snoc]
    split
    · rw [joinW_snoc (xs ++ [y]) w (by simp)]
    · cases xs with
      | nil => rfl
      | cons x xs2 =>
        rw [joinW_snoc (x :: xs2) (y ++ ' ' :: w) (by simp),
            joinW_snoc (x :: xs2) y (by simp)]
        simp

/-- Folding pushWord appends the space-prefixed words to the joined text. -/
theorem foldl_pushWord_join (ws : List (List Char)) :
    ∀ cs, cs ≠ [] → joinW (List.foldl pushWord cs ws) = joinW cs ++ flatWords ws := by
  induction ws with
  | nil => intro cs _; simp [flatWords]
  | cons w ws ih =>
    intro cs h
    rw [List.foldl_cons, ih (pushWord cs w) (pushWord_ne_nil cs w),
        joinW_pushWord cs w h]
    simp [flatWords]

/-- Reconstruction: joining all chunks with single spaces gives back the text. -/
theorem joinW_chunkMessage (d : List Char) : joinW (chunkMessage d) = d := by
  unfold chunkMessage
  cases hs : splitSpace d with
  | nil => exact absurd hs (splitSpace_ne_nil d)
  | cons w ws =>
    rw [List.foldl_cons, pushWord_nil,
        foldl_pushWord_join ws [w] (by simp)]
    have : joinW [w] = w := rfl
    rw [this, ← joinW_eq_flat w ws, ← hs, joinW_splitSpace]

/-- pushWord preserves per-run membership in a word predicate. -/
theorem pushWord_runs (P : List Char → Prop) (cs : List (List Char)) (w : List Char)
    (hcs : ∀ c ∈ cs, ∀ r ∈ splitSpace c, P r) (hw : P w) (hsp : ' ' ∉ w) :
    ∀ c ∈ pushWord cs w, ∀ r ∈ splitSpace c, P r := by
  rcases List.eq_nil_or_concat cs with rfl | ⟨xs, y, rfl⟩
  · rw [pushWord_nil]
    intro c hc r hr
    rcases List.mem_singleton.mp hc with rfl
    rw [splitSpace_of_no_space _ hsp] at hr
    rcases List.mem_singleton.mp hr with rfl
    exact hw
  · simp only [List.concat_eq_append] at hcs ⊢
    rw [pushWord_snoc]
    split
    · intro c hc r hr
      rcases List.mem_append.mp hc with hc | hc
      · exact hcs c hc r hr
      · rcases List.mem_singleton.mp hc with rfl
        rw [splitSpace_of_no_space _ hsp] at hr
        rcases List.mem_singleton.mp hr with rfl
        exact hw
    · intro c hc r hr
      rcases List.mem_append.mp hc with hc | hc
      · exact hcs c (List.mem_append_left [y] hc) r hr
      · rcases List.mem_singleton.mp hc with rfl
        rw [splitSpace_append y _, splitSpace_of_no_space _ hsp] at hr
        rcases List.mem_append.mp hr with hr | hr
        · exact hcs y (List.mem_append_right xs (List.mem_singleton_self y)) r hr
        · rcases List.mem_singleton.mp hr with rfl
          exact hw

/-- Folding pushWord preserves per-run membership in a word predicate. -/
theorem foldl_pushWord_runs (P : List Char → Prop) (ws : List (List Char)) :
    ∀ cs, (∀ c ∈ cs, ∀ r ∈ splitSpace c, P r) → (∀ w ∈ ws, P w ∧ ' ' ∉ w) →
      ∀ c ∈ List.foldl pushWord cs ws, ∀ r ∈ splitSpace c, P r := by
  induction ws with
  | nil => intro cs h _; simpa using h
  | cons w ws ih =>
    intro cs h hws
    rw [List.foldl_cons]
    exact ih (pushWord cs w)
      (pushWord_runs P cs w h (hws w (List.mem_cons_self w ws)).1
        (hws w (List.mem_cons_self w ws)).2)
      (fun v hv => hws v (List.mem_cons_of_mem w hv))

/-- Every space-free run inside a chunk is a word of the original text. -/
theorem chunkMessage_runs (d : List Char) :
    ∀ c ∈ chunkMessage d, ∀ r ∈ splitSpace c, r ∈ splitSpace d := by
  unfold chunkMessage
  exact foldl_pushWord_runs (fun r => r ∈ splitSpace d) (splitSpace d) []
    (by simp)
    (fun w hw => ⟨hw, splitSpace_no_space d w hw⟩)

/-- Members of a Nat list are bounded by the foldr max. -/
theorem foldr_max_ge (l : List Nat) : ∀ x ∈ l, x ≤ l.foldr max 0 := by
  induction l with
  | nil => simp
  | cons a l ih =>
    intro x hx
    rcases List.mem_cons.mp hx with rfl | hx
    · exact le_max_left x (l.foldr max 0)
    · exact le_trans (ih x hx) (le_max_right a (l.foldr max 0))

/-- Every word of the text has length at most maxWordLen. -/
theorem length_le_maxWordLen (d w : List Char) (h : w ∈ splitSpace d) :
    w.length ≤ maxWordLen d :=
  foldr_max_ge _ _ (List.mem_map_of_mem List.length h)

/-- pushWord keeps all chunk lengths below threshold + 1 + word bound. -/
theorem pushWord_bound (B : Nat) (cs : List (List Char)) (w : List Char)
    (hcs : ∀ c ∈ cs, c.length ≤ MESSAGE_CHUNK_SIZE + 1 + B) (hw : w.length ≤ B) :
    ∀ c ∈ pushWord cs w, c.length ≤ MESSAGE_CHUNK_SIZE + 1 + B := by
  rcases List.eq_nil_or_concat cs with rfl | ⟨xs, y, rfl⟩
  · rw [pushWord_nil]
    intro c hc
    rcases List.mem_singleton.mp hc with rfl
    omega
  · simp only [List.concat_eq_append] at hcs ⊢
    rw [pushWord_snoc]
    split
    · intro c hc
      rcases List.mem_append.mp hc with hc | hc
      · exact hcs c hc
      · rcases List.mem_singleton.mp hc with rfl
        omega
    · rename_i hy
      intro c hc
      rcases List.mem_append.mp hc with hc | hc
      · exact hcs c (List.mem_append_left [y] hc)
      · rcases List.mem_singleton.mp hc with rfl
        have : (y ++ ' ' :: w).length = y.length + 1 + w.length := by simp; omega
        omega

/-- Folding pushWord keeps all chunk lengths bounded. -/
theorem foldl_pushWord_bound (B : Nat) (ws : List (List Char)) :
    ∀ cs, (∀ c ∈ cs, c.length ≤ MESSAGE_CHUNK_SIZE + 1 + B) → (∀ w ∈ ws, w.length ≤ B) →
      ∀ c ∈ List.foldl pushWord cs ws, c.length ≤ MESSAGE_CHUNK_SIZE + 1 + B := by
  induction ws with
  | nil => intro cs h _; simpa using h
  | cons w ws ih =>
    intro cs h hws
    rw [List.foldl_cons]
    exact ih (pushWord cs w)
      (pushWord_bound B cs w h (hws w (List.mem_cons_self w ws)))
      (fun v hv => hws v (List.mem_cons_of_mem w hv))

/-- Every chunk overshoots the threshold by at most one space and one word. -/
theorem chunkMessage_bound (d : List Char) :
    ∀ c ∈ chunkMessage d, c.length ≤ MESSAGE_CHUNK_SIZE + 1 + maxWordLen d := by
  unfold chunkMessage
  exact foldl_pushWord_bound (maxWordLen d) (splitSpace d) [] (by simp)
    (fun w hw => length_le_maxWordLen d w hw)

/-- pushWord keeps every chunk but the last nonempty. -/
theorem pushWord_dropLast_ne_nil (cs : List (List Char)) (w : List Char)
    (h : ∀ c ∈ cs.dropLast, c ≠ []) :
    ∀ c ∈ (pushWord cs w).dropLast, c ≠ [] := by
  rcases List.eq_nil_or_concat cs with rfl | ⟨xs, y, rfl⟩
  · rw [pushWord_nil]
    simp
  · simp only [List.concat_eq_append] at h ⊢
    rw [pushWord_snoc]
    split
    · rename_i hy
      rw [List.dropLast_concat]
      intro c hc
      rcases List.mem_append.mp hc with hc | hc
      · exact h c (by rwa [List.dropLast_concat])
      · rcases List.mem_singleton.mp hc with rfl
        intro hnil
        rw [hnil] at hy
        simp [MESSAGE_CHUNK_SIZE] at hy
    · rw [List.dropLast_concat]
      intro c hc
      exact h c (by rwa [List.dropLast_concat])

/-- pushWord preserves the last-chunk-empty characterization. -/
theorem pushWord_last_empty (cs : List (List Char)) (w : List Char)
    (h : cs.getLast? = some [] →
      cs = [[]] ∨ ∃ q, cs.dropLast.getLast? = some q ∧ MESSAGE_CHUNK_SIZE < q.length) :
    (pushWord cs w).getLast? = some [] →
      pushWord cs w = [[]] ∨
        ∃ q, (pushWord cs w).dropLast.getLast? = some q ∧ MESSAGE_CHUNK_SIZE < q.length := by
  rcases List.eq_nil_or_concat cs with rfl | ⟨xs, y, rfl⟩
  · rw [pushWord_nil]
    intro hlast
    left
    simpa using hlast
  · simp only [List.concat_eq_append] at h ⊢
    rw [pushWord_snoc]
    split
    · rename_i hy
      intro hlast
      right
      rw [List.getLast?_concat] at hlast
      rw [List.dropLast_concat, List.getLast?_concat]
      exact ⟨y, rfl, hy⟩
    · intro hlast
      rw [List.getLast?_concat] at hlast
      exact absurd (Option.some.inj hlast) (by simp)

/-- Folding pushWord preserves both emptiness invariants. -/
theorem foldl_pushWord_empty (ws : List (List Char)) :
    ∀ cs, (∀ c ∈ cs.dropLast, c ≠ []) →
      (cs.getLast? = some [] →
        cs = [[]] ∨ ∃ q, cs.dropLast.getLast? = some q ∧ MESSAGE_CHUNK_SIZE < q.length) →
      (∀ c ∈ (List.foldl pushWord cs ws).dropLast, c ≠ []) ∧
        ((List.foldl pushWord cs ws).getLast? = some [] →
          List.foldl pushWord cs ws = [[]] ∨
            ∃ q, (List.foldl pushWord cs ws).dropLast.getLast? = some q ∧
              MESSAGE_CHUNK_SIZE < q.length) := by
  induction ws with
  | nil => intro cs h1 h2; exact ⟨h1, h2⟩
  | cons w ws ih =>
    intro cs h1 h2
    rw [List.foldl_cons]
    exact ih (pushWord cs w) (pushWord_dropLast_ne_nil cs w h1) (pushWord_last_empty cs w h2)

/-- Every chunk except the last is nonempty, and an empty last chunk forces an
empty text or an over-threshold penultimate chunk. -/
theorem chunkMessage_empty (d : List Char) :
    (∀ c ∈ (chunkMessage d).dropLast, c ≠ []) ∧
      ((chunkMessage d).getLast? = some [] →
        d = [] ∨ ∃ q, (chunkMessage d).dropLast.getLast? = some q ∧
          MESSAGE_CHUNK_SIZE < q.length) := by
  have h := foldl_pushWord_empty (splitSpace d) [] (by simp) (by simp)
  rw [← chunkMessage] at h
  refine ⟨h.1, fun hlast => ?_⟩
  rcases h.2 hlast with h2 | h2
  · left
    have := joinW_chunkMessage d
    rw [h2] at this
    simpa [joinW] using this.symm
  · right
    exact h2

/-- The chunk loop starts a new chunk exactly when the existing last chunk
already exceeds the threshold; an over-threshold last chunk is left untouched. -/
theorem pushWord_new_chunk_iff (cs : List (List Char)) (w last : List Char)
    (h : cs.getLast? = some last) :
    (pushWord cs w = cs ++ [w] ↔ MESSAGE_CHUNK_SIZE < last.length) := by
  rcases List.eq_nil_or_concat cs with rfl | ⟨xs, y, rfl⟩
  · simp at h
  · simp only [List.concat_eq_append] at h ⊢
    rw [List.getLast?_concat] at h
    rcases Option.some.inj h with rfl
    rw [pushWord_snoc]
    constructor
    · intro heq
      by_contra hlen
      rw [if_neg hlen] at heq
      have := congrArg List.length heq
      simp at this
    · intro hlen
      rw [if_pos hlen]

/-- C1 (amended): for every display string, joining the chunks with single
spaces reconstructs it; every space-free run inside a chunk is a word of the
display string, hence no longer than its longest word; every chunk except the
last is nonempty; and an empty last chunk occurs only for the empty display
string or right after a chunk that already exceeds the 1500-character
threshold. -/
theorem C1_theorem (d : List Char) :
    joinW (chunkMessage d) = d ∧
      (∀ c ∈ chunkMessage d, ∀ r ∈ splitSpace c,
        r ∈ splitSpace d ∧ r.length ≤ maxWordLen d) ∧
      (∀ c ∈ (chunkMessage d).dropLast, c ≠ []) ∧
      ((chunkMessage d).getLast? = some [] →
        d = [] ∨ ∃ q, (chunkMessage d).dropLast.getLast? = some q ∧
          MESSAGE_CHUNK_SIZE < q.length) := by
  refine ⟨joinW_chunkMessage d, ?_, (chunkMessage_empty d).1, (chunkMessage_empty d).2⟩
  intro c hc r hr
  have hmem := chunkMessage_runs d c hc r hr
  exact ⟨hmem, length_le_maxWordLen d r hmem⟩

/-- C1 witness: concrete instance of the amended chunking theorem. -/
theorem C1_witness :
    joinW (chunkMessage ['a', ' ', 'b']) = ['a', ' ', 'b'] ∧
      (['a'] ∈ splitSpace ['a', ' ', 'b'] ∧
        List.length ['a'] ≤ maxWordLen ['a', ' ', 'b']) :=
  ⟨( C1_theorem ['a', ' ', 'b']).1,
    ( C1_theorem ['a', ' ', 'b']).2.1 ['a', ' ', 'b'] (by decide) ['a'] (by decide)⟩

/-- The chunks of the C1 counterexample input, computed symbolically. -/
theorem chunkMessage_counterexample_eq :
    chunkMessage (List.replicate 1501 'a' ++ [' ']) =
      [List.replicate 1501 'a', []] := by
  have hnos : ' ' ∉ List.replicate 1501 'a' := by
    intro h
    exact absurd (List.eq_of_mem_replicate h) (by decide)
  have hsplit : splitSpace (List.replicate 1501 'a' ++ [' ']) =
      [List.replicate 1501 'a', []] := by
    rw [show (List.replicate 1501 'a' ++ [' '] : List Char) =
          List.replicate 1501 'a' ++ ' ' :: [] from rfl,
        splitSpace_append, splitSpace_of_no_space _ hnos]
    rfl
  unfold chunkMessage
  rw [hsplit, List.foldl_cons, List.foldl_cons, List.foldl_nil, pushWord_nil]
  have hp := pushWord_snoc [] (List.replicate 1501 'a') []
  rw [List.nil_append] at hp
  rw [hp, if_pos (by rw [List.length_replicate]; norm_num [MESSAGE_CHUNK_SIZE])]
  rfl

/-- C6: a word is placed into a new chunk exactly when the existing last
chunk's length strictly exceeds the 1500-character threshold (in which case
the old chunks are left untouched and the word alone forms the new chunk),
and consequently every chunk's length is at most the threshold plus one space
plus the longest word of the display string. -/
theorem C6_theorem :
    (∀ (cs : List (List Char)) (w last : List Char), cs.getLast? = some last →
      (pushWord cs w = cs ++ [w] ↔ MESSAGE_CHUNK_SIZE < last.length)) ∧
      (∀ (cs : List (List Char)) (w last : List Char), cs.getLast? = some last →
        MESSAGE_CHUNK_SIZE < last.length → pushWord cs w = cs ++ [w]) ∧
      (∀ (d : List Char), ∀ c ∈ chunkMessage d,
        c.length ≤ MESSAGE_CHUNK_SIZE + 1 + maxWordLen d) := by
  refine ⟨pushWord_new_chunk_iff, ?_, chunkMessage_bound⟩
  intro cs w last h hlen
  exact (pushWord_new_chunk_iff cs w last h).mpr hlen

/-- C6 witness: concrete instances of the chunking-threshold theorem. -/
theorem C6_witness :
    (pushWord [['a']] ['b'] = [['a']] ++ [['b']] ↔
      MESSAGE_CHUNK_SIZE < List.length ['a']) ∧
      List.length ['a', ' ', 'b'] ≤ MESSAGE_CHUNK_SIZE + 1 + maxWordLen ['a', ' ', 'b'] :=
  ⟨C6_theorem.1 [['a']] ['b'] ['a'] (by decide),
    C6_theorem.2.2 ['a', ' ', 'b'] ['a', ' ', 'b'] (by decide)⟩

/-- C1 counterexample: a 1501-character word followed by a space yields the
chunks [word, empty], so a chunk is empty although the display string is not. -/
theorem C1_counterexample :
    List.replicate 1501 'a' ++ [' '] ≠ [] ∧
      [] ∈ chunkMessage (List.replicate 1501 'a' ++ [' ']) := by
  constructor
  · intro h
    have hl := congrArg List.length h
    simp only [List.length_append, List.length_replicate, List.length_cons,
      List.length_nil] at hl
    omega
  · rw [chunkMessage_counterexample_eq]
    exact List.mem_cons_of_mem _ (List.mem_singleton_self [])

/-- Stripping a literal prefix succeeds with the remainder. -/
theorem stripPfx_append (xs r : List Char) : stripPfx xs (xs ++ r) = some r := by
  induction xs with
  | nil => rfl
  | cons x xs ih => simp [stripPfx, ih]

/-- A successful strip recovers the split of the string. -/
theorem stripPfx_eq_some (xs s r : List Char) (h : stripPfx xs s = some r) :
    s = xs ++ r := by
  induction xs generalizing s with
  | nil =>
    simp only [stripPfx] at h
    simpa using Option.some.inj h
  | cons x xs ih =>
    cases s with
    | nil => simp [stripPfx] at h
    | cons y ys =>
      simp only [stripPfx] at h
      by_cases hxy : x = y
      · rw [if_pos hxy] at h
        rw [← hxy, List.cons_append, ih ys h]
      · rw [if_neg hxy] at h
        exact absurd h (by simp)

/-- stripPfx characterized through isPrefixOf and drop. -/
theorem stripPfx_eq_isPrefixOf (xs s : List Char) :
    stripPfx xs s = if xs.isPrefixOf s then some (s.drop xs.length) else none := by
  induction xs generalizing s with
  | nil => simp [stripPfx, List.isPrefixOf]
  | cons x xs ih =>
    cases s with
    | nil => simp [stripPfx, List.isPrefixOf]
    | cons y ys =>
      simp only [stripPfx, List.isPrefixOf, ih]
      by_cases hxy : x = y
      · simp [hxy]
      · simp [hxy]

/-- A Boolean prefix check yields the split of the string. -/
theorem isPrefixOf_append (xs s : List Char) (h : xs.isPrefixOf s) :
    s = xs ++ s.drop xs.length :=
  stripPfx_eq_some xs s _ (by rw [stripPfx_eq_isPrefixOf, if_pos h])

/-- A Boolean prefix is no longer than the string. -/
theorem isPrefixOf_length_le (xs s : List Char) (h : xs.isPrefixOf s) :
    xs.length ≤ s.length := by
  have hs := isPrefixOf_append xs s h
  have := congrArg List.length hs
  rw [List.length_append] at this
  omega

/-- A successful split_once recovers the structure of the string. -/
theorem splitOnce_eq_some (s pat a b : List Char) (h : splitOnce s pat = some (a, b)) :
    s = a ++ pat ++ b := by
  induction s generalizing a b with
  | nil =>
    simp only [splitOnce] at h
    by_cases hp : pat.isEmpty
    · rw [if_pos hp] at h
      rcases Prod.mk.injEq .. ▸ Option.some.inj h with ⟨rfl, rfl⟩
      simp [List.isEmpty_iff.mp hp]
    · rw [if_neg hp] at h
      exact absurd h (by simp)
  | cons c cs ih =>
    simp only [splitOnce] at h
    by_cases hp : pat.isPrefixOf (c :: cs)
    · rw [if_pos hp] at h
      rcases Prod.mk.injEq .. ▸ Option.some.inj h with ⟨rfl, rfl⟩
      have ht := isPrefixOf_append pat (c :: cs) hp
      rw [List.nil_append]
      exact ht
    · rw [if_neg hp] at h
      cases hrec : splitOnce cs pat with
      | none => rw [hrec] at h; simp at h
      | some pr =>
        rw [hrec] at h
        simp only [Option.map_some'] at h
        rcases Prod.mk.injEq .. ▸ Option.some.inj h with ⟨hc, rfl⟩
        cases a with
        | nil => simp at hc
        | cons a0 as =>
          rcases List.cons.injEq .. ▸ hc with ⟨rfl, rfl⟩
          rw [List.cons_append, List.cons_append, ih pr.1 pr.2 (by rw [hrec])]

/-- C2 (amended): when the code's split of the template at the first
occurrence of the placeholder yields (prefix, suffix) — in particular whenever
the prefix contains no earlier occurrence — and the raw model output is
prefix ++ userPrompt ++ suffix ++ X, decoupled extraction returns
userPrompt ++ (a newline if the suffix ends in one) ++ X. -/
theorem C2_theorem (p : Prompts) (pre suffix X : List Char)
    (h : splitOnce p.template PROMPT_PLACEHOLDER = some (pre, suffix)) :
    decouple_prompt_from_message p (pre ++ p.user ++ suffix ++ X) =
      p.user ++ (if suffix.getLast? = some '\n' then ['\n'] else []) ++ X := by
  simp only [decouple_prompt_from_message, h, Option.getD_some, List.append_assoc,
    stripPfx_append]

/-- C2 witness: concrete instance of the amended extraction theorem. -/
theorem C2_witness :
    decouple_prompt_from_message
        { show_prompt_template := false, processed := [], user := ['u'],
          template := PROMPT_PLACEHOLDER } ([] ++ ['u'] ++ [] ++ ['X']) =
      ['u'] ++ (if ([] : List Char).getLast? = some '\n' then ['\n'] else []) ++ ['X'] :=
  C2_theorem
    { show_prompt_template := false, processed := [], user := ['u'],
      template := PROMPT_PLACEHOLDER } [] [] ['X'] (by decide)

/-- C2 counterexample: with prefix = "{{PROMPT}}", suffix = "", userPrompt =
"B", X = "", the template is prefix ++ "{{PROMPT}}" ++ suffix and the output
is prefix ++ userPrompt ++ suffix ++ X, yet extraction does not return
userPrompt ++ X, because split_once finds the earlier occurrence. -/
theorem C2_counterexample :
    decouple_prompt_from_message
        { show_prompt_template := false, processed := [], user := ['B'],
          template := PROMPT_PLACEHOLDER ++ PROMPT_PLACEHOLDER ++ [] }
        (PROMPT_PLACEHOLDER ++ ['B'] ++ [] ++ []) ≠
      ['B'] ++ (if ([] : List Char).getLast? = some '\n' then ['\n'] else []) ++ [] := by
  decide

/-- C10: when the command's template does not contain the placeholder (the
split yields nothing and defaults to empty prefix and suffix), decoupled
extraction returns the raw model output unchanged. -/
theorem C10_theorem (p : Prompts) (output : List Char)
    (h : splitOnce p.template PROMPT_PLACEHOLDER = none) :
    decouple_prompt_from_message p output = output := by
  simp only [decouple_prompt_from_message, h, Option.getD_none]
  cases hs : stripPfx p.user output with
  | none => simp [stripPfx, hs]
  | some resp =>
    have hout := stripPfx_eq_some p.user output resp hs
    simp [stripPfx, hs, hout, stripPfx_append]

/-- C10 witness: concrete instance of the placeholder-free template theorem. -/
theorem C10_witness :
    decouple_prompt_from_message
        { show_prompt_template := false, processed := [], user := ['u'],
          template := ['t'] } ['x', 'y'] = ['x', 'y'] :=
  C10_theorem
    { show_prompt_template := false, processed := [], user := ['u'],
      template := ['t'] } ['x', 'y'] (by decide)

/-- The bold/strike formatting of a display string against a reference. -/
theorem format_cases (d ref : List Char) :
    (match stripPfx ref d with
     | some msg => bold ref ++ msg
     | none =>
       match stripPfx d ref with
       | some ungenerated =>
         if d = [] then strike ungenerated else bold d ++ strike ungenerated
       | none => d) =
      (if ref.isPrefixOf d then bold ref ++ d.drop ref.length
       else if d.isPrefixOf ref then
         (if d = [] then strike ref else bold d ++ strike (ref.drop d.length))
       else d) := by
  rw [stripPfx_eq_isPrefixOf ref d, stripPfx_eq_isPrefixOf d ref]
  by_cases h1 : ref.isPrefixOf d
  · simp [h1]
  · simp only [h1, Bool.false_eq_true, if_false]
    by_cases h2 : d.isPrefixOf ref
    · simp only [h2, if_true]
      by_cases h3 : d = []
      · subst h3
        simp
      · simp [h3]
    · simp [h2]

/-- C7: the markdown formatting obeys exactly three cases against the
reference prefix (processed template in template mode, raw user prompt in
decoupled mode): reference-is-prefix renders bold reference plus remainder;
display-is-prefix renders the struck reference when display is empty and bold
display plus struck remainder otherwise; otherwise display is rendered
verbatim. -/
theorem C7_theorem (p : Prompts) (raw display ref : List Char)
    (hd : display = if p.show_prompt_template then raw
      else decouple_prompt_from_message p raw)
    (hr : ref = if p.show_prompt_template then p.processed else p.user) :
    make_markdown_message p raw =
      if ref.isPrefixOf display then bold ref ++ display.drop ref.length
      else if display.isPrefixOf ref then
        (if display = [] then strike ref else bold display ++ strike (ref.drop display.length))
      else display := by
  subst hd hr
  cases hb : p.show_prompt_template with
  | false =>
    simp only [make_markdown_message, hb, Bool.not_false, if_true, if_false]
    exact format_cases (decouple_prompt_from_message p raw) p.user
  | true =>
    simp only [make_markdown_message, hb, Bool.not_true, if_true, if_false]
    exact format_cases raw p.processed

/-- C7 witness: concrete instance of the three-case formatting theorem. -/
theorem C7_witness :
    make_markdown_message
        { show_prompt_template := true, processed := ['h', 'i'], user := [],
          template := [] } ['h'] =
      if List.isPrefixOf ['h', 'i'] ['h'] then
        bold ['h', 'i'] ++ List.drop (List.length ['h', 'i']) ['h']
      else if List.isPrefixOf ['h'] ['h', 'i'] then
        (if (['h'] : List Char) = [] then strike ['h', 'i']
         else bold ['h'] ++ strike (List.drop (List.length ['h']) ['h', 'i']))
      else ['h'] :=
  C7_theorem
    { show_prompt_template := true, processed := ['h', 'i'], user := [], template := [] }
    ['h'] ['h'] ['h', 'i'] (by decide) (by decide)

/-- editLastZip preserves the number of messages. -/
theorem editLastZip_length : ∀ (ms : List MsgUnit) (cs : List (List Char)),
    (editLastZip ms cs).length = ms.length
  | [], _ => by simp [editLastZip]
  | _ :: _, [] => by simp [editLastZip]
  | [_], _ :: _ => by simp [editLastZip]
  | m :: m2 :: ms, c :: cs => by
    cases cs with
    | nil => simp [editLastZip]
    | cons c2 cs2 =>
      simp [editLastZip, editLastZip_length (m2 :: ms) (c2 :: cs2)]

/-- editLastZip edits contents only, leaving all cancel flags unchanged. -/
theorem editLastZip_flags : ∀ (ms : List MsgUnit) (cs : List (List Char)),
    cancelFlags (editLastZip ms cs) = cancelFlags ms
  | [], _ => by simp [editLastZip]
  | _ :: _, [] => by simp [editLastZip]
  | [_], _ :: _ => by simp [editLastZip, cancelFlags]
  | m :: m2 :: ms, c :: cs => by
    cases cs with
    | nil => simp [editLastZip, cancelFlags]
    | cons c2 cs2 =>
      have := editLastZip_flags (m2 :: ms) (c2 :: cs2)
      simp only [editLastZip, cancelFlags, List.map_cons] at this ⊢
      rw [this]

/-- setLastCancel preserves the number of messages. -/
theorem setLastCancel_length : ∀ ms : List MsgUnit, (setLastCancel ms).length = ms.length
  | [] => rfl
  | [_] => rfl
  | _ :: m2 :: ms => by simp [setLastCancel, setLastCancel_length (m2 :: ms)]

/-- setLastCancel on an all-clear nonempty list: exactly the last carries it. -/
theorem setLastCancel_count : ∀ ms : List MsgUnit, (∀ m ∈ ms, m.hasCancel = false) →
    ms ≠ [] → countCancel (setLastCancel ms) = 1 ∧ lastHasCancel (setLastCancel ms)
  | [], _, hne => absurd rfl hne
  | [m], _, _ => by
    simp [setLastCancel, countCancel, cancelFlags, lastHasCancel]
  | m :: m2 :: ms, h, _ => by
    have ih := setLastCancel_count (m2 :: ms) (fun v hv => h v (List.mem_cons_of_mem m hv))
      (by simp)
    have hm : m.hasCancel = false := h m (List.mem_cons_self m (m2 :: ms))
    obtain ⟨m3, ms3, hrep⟩ : ∃ m3 ms3, setLastCancel (m2 :: ms) = m3 :: ms3 := by
      cases ms with
      | nil => exact ⟨_, _, rfl⟩
      | cons m4 ms4 => exact ⟨_, _, rfl⟩
    constructor
    · simp only [setLastCancel, countCancel, cancelFlags, List.map_cons, List.count_cons, hm]
      have := ih.1
      simp only [countCancel, cancelFlags] at this
      simp [this]
    · have := ih.2
      simp only [lastHasCancel, cancelFlags, hrep, List.map_cons] at this ⊢
      rw [show setLastCancel (m :: m2 :: ms) = m :: setLastCancel (m2 :: ms) from rfl,
        hrep]
      simp only [List.map_cons]
      rwa [List.getLast?_cons_cons]

/-- A synchronization pass leaves the accumulated text, the chunks and the
terminal flag unchanged. -/
theorem sync_fields (s : Outputter) :
    (sync_messages_with_chunks s).message = s.message ∧
      (sync_messages_with_chunks s).chunks = s.chunks ∧
      (sync_messages_with_chunks s).in_terminal_state = s.in_terminal_state := by
  unfold sync_messages_with_chunks
  dsimp only
  split
  · exact ⟨rfl, rfl, rfl⟩
  · split
    · exact ⟨rfl, rfl, rfl⟩
    · exact ⟨rfl, rfl, rfl⟩

/-- A synchronization pass on a nonempty unit list ends with
max(previous units, chunks) units. -/
theorem sync_length_eq (s : Outputter) (h : s.messages ≠ []) :
    (sync_messages_with_chunks s).messages.length =
      max s.messages.length s.chunks.length := by
  unfold sync_messages_with_chunks
  dsimp only
  split
  · rename_i hle
    rw [editLastZip_length] at hle ⊢
    exact (Nat.max_eq_left hle).symm
  · rename_i hgt
    rw [editLastZip_length] at hgt
    push_neg at hgt
    split
    · rename_i hemp
      have hlen0 : s.messages.length = 0 := by
        have hz := List.isEmpty_iff_length_eq_zero.mp hemp
        simpa [editLastZip_length] using hz
      exact absurd (List.length_eq_zero.mp hlen0) h
    · simp only [setLastCancel_length, List.length_append, List.length_map,
        editLastZip_length, List.length_drop]
      omega

/-- A synchronization pass never removes units. -/
theorem sync_length_ge (s : Outputter) :
    s.messages.length ≤ (sync_messages_with_chunks s).messages.length := by
  unfold sync_messages_with_chunks
  dsimp only
  split
  · rw [editLastZip_length]
  · rename_i hgt
    rw [editLastZip_length] at hgt
    push_neg at hgt
    split
    · rename_i hemp
      have hlen0 : s.messages.length = 0 := by
        have hz := List.isEmpty_iff_length_eq_zero.mp hemp
        simpa [editLastZip_length] using hz
      simp [hlen0]
    · simp only [setLastCancel_length, List.length_append, List.length_map,
        editLastZip_length, List.length_drop]
      omega

/-- A synchronization pass preserves a unique cancel affordance on the last
unit. -/
theorem sync_cancel_inv (s : Outputter) (h1 : countCancel s.messages = 1)
    (h2 : lastHasCancel s.messages) :
    countCancel (sync_messages_with_chunks s).messages = 1 ∧
      lastHasCancel (sync_messages_with_chunks s).messages := by
  have hne : s.messages ≠ [] := by
    intro he
    rw [he] at h1
    simp [countCancel, cancelFlags] at h1
  unfold sync_messages_with_chunks
  dsimp only
  split
  · constructor
    · simpa [countCancel, editLastZip_flags] using h1
    · simpa [lastHasCancel, editLastZip_flags] using h2
  · rename_i hgt
    rw [editLastZip_length] at hgt
    push_neg at hgt
    split
    · rename_i hemp
      have hlen0 : s.messages.length = 0 := by
        have hz := List.isEmpty_iff_length_eq_zero.mp hemp
        simpa [editLastZip_length] using hz
      exact absurd (List.length_eq_zero.mp hlen0) hne
    · rename_i hemp
      apply setLastCancel_count
      · intro m hm
        rcases List.mem_append.mp hm with hm | hm
        · rcases List.mem_map.mp hm with ⟨m0, _, rfl⟩
          rfl
        · rcases List.mem_map.mp hm with ⟨c0, _, rfl⟩
          rfl
      · intro he
        rcases List.append_eq_nil.mp he with ⟨he1, _⟩
        rw [he1] at hemp
        simp at hemp

/-- The running invariant of a job after its first nonempty fragment. -/
def okState (s : Outputter) : Prop :=
  s.in_terminal_state = false ∧ s.message ≠ [] ∧
    countCancel s.messages = 1 ∧ lastHasCancel s.messages

/-- A synchronization pass preserves the running invariant. -/
theorem sync_ok (s : Outputter) (h : okState s) :
    okState (sync_messages_with_chunks s) := by
  obtain ⟨h1, h2, h3, h4⟩ := h
  obtain ⟨hm, _, ht⟩ := sync_fields s
  obtain ⟨hc1, hc2⟩ := sync_cancel_inv s h3 h4
  exact ⟨by rw [ht, h1], by rw [hm]; exact h2, hc1, hc2⟩

/-- Processing any further fragment preserves the running invariant. -/
theorem new_token_ok (p : Prompts) (s : Outputter) (t : List Char) (b : Bool)
    (h : okState s) : okState (new_token p s t b) := by
  obtain ⟨h1, h2, h3, h4⟩ := h
  unfold new_token
  rw [h1]
  simp only [Bool.false_eq_true, if_false, if_neg h2]
  cases b with
  | false =>
    simp only [Bool.false_eq_true, if_false]
    exact ⟨rfl, fun he => h2 (List.append_eq_nil.mp he).1, h3, h4⟩
  | true =>
    simp only [if_true]
    exact sync_ok _ ⟨rfl, fun he => h2 (List.append_eq_nil.mp he).1, h3, h4⟩

/-- The first nonempty fragment establishes the running invariant. -/
theorem first_token_ok (p : Prompts) (t : List Char) (b : Bool) (ht : t ≠ []) :
    okState (new_token p (Outputter.new p) t b) := by
  unfold new_token
  have h1 : (Outputter.new p).in_terminal_state = false := rfl
  have h2 : (Outputter.new p).message = [] := rfl
  rw [h1, h2]
  simp only [Bool.false_eq_true, if_false, if_pos rfl]
  have hcount : countCancel (setFirstCancel (Outputter.new p).messages) = 1 := by
    simp [Outputter.new, setFirstCancel, countCancel, cancelFlags]
  have hlast : lastHasCancel (setFirstCancel (Outputter.new p).messages) := by
    simp [Outputter.new, setFirstCancel, lastHasCancel, cancelFlags]
  cases b with
  | false =>
    simp only [Bool.false_eq_true, if_false]
    exact ⟨rfl, by simpa using ht, hcount, hlast⟩
  | true =>
    simp only [if_true]
    exact sync_ok _ ⟨rfl, by simpa using ht, hcount, hlast⟩

/-- Folding fragments preserves the running invariant. -/
theorem foldl_new_token_ok (p : Prompts) (l : List (List Char × Bool)) :
    ∀ s : Outputter, okState s →
      okState (l.foldl (fun s tb => new_token p s tb.1 tb.2) s) := by
  induction l with
  | nil => intro s h; exact h
  | cons x l ih =>
    intro s h
    rw [List.foldl_cons]
    exact ih _ (new_token_ok p s x.1 x.2 h)

/-- A step never removes delivery units. -/
theorem stepEvent_length_ge (p : Prompts) (s : Outputter) (e : OutEvent) :
    s.messages.length ≤ (stepEvent p s e).messages.length := by
  cases e with
  | tok t b =>
    show s.messages.length ≤ (new_token p s t b).messages.length
    unfold new_token
    split
    · exact le_refl _
    · dsimp only
      have hlen : (if s.message = [] then setFirstCancel s.messages
          else s.messages).length = s.messages.length := by
        split
        · cases s.messages with
          | nil => rfl
          | cons m ms => rfl
        · rfl
      split
      · refine le_trans (le_of_eq hlen.symm) ?_
        exact sync_length_ge ⟨if s.message = [] then setFirstCancel s.messages
          else s.messages, chunkMessage (make_markdown_message p (s.message ++ t)),
          s.message ++ t, s.in_terminal_state⟩
      · exact le_of_eq hlen.symm
  | finish =>
    show s.messages.length ≤ (Outputter.finish s).messages.length
    unfold Outputter.finish
    refine le_trans ?_ (sync_length_ge _)
    simp
  | error m =>
    show s.messages.length ≤ (on_error m s).messages.length
    unfold on_error
    dsimp only
    split <;> simp

/-- A small concrete Prompts value used by the witnesses. -/
def pSmall : Prompts := ⟨true, ['h'], ['h'], ['t']⟩

/-- C5 (amended): delivery units are append-only under every event; a
synchronization pass on a nonempty unit list ends with exactly
max(previous units, chunks) units (len(units) ≤ len(chunks) itself can fail:
the initial state has one unit and no chunks, and the chunk count can shrink);
and after any fragment sequence whose first fragment is nonempty, with no
finish or failure processed, exactly one unit — the last — carries the cancel
affordance. -/
theorem C5_theorem :
    (∀ (p : Prompts) (s : Outputter) (e : OutEvent),
      s.messages.length ≤ (stepEvent p s e).messages.length) ∧
      (∀ s : Outputter, s.messages ≠ [] →
        (sync_messages_with_chunks s).messages.length =
          max s.messages.length s.chunks.length) ∧
      (∀ (p : Prompts) (x : List Char × Bool) (rest : List (List Char × Bool)),
        x.1 ≠ [] →
        countCancel (runToks p (x :: rest)).messages = 1 ∧
          lastHasCancel (runToks p (x :: rest)).messages) := by
  refine ⟨stepEvent_length_ge, sync_length_eq, ?_⟩
  intro p x rest hx
  have h0 : okState (new_token p (Outputter.new p) x.1 x.2) :=
    first_token_ok p x.1 x.2 hx
  have h := foldl_new_token_ok p rest _ h0
  unfold runToks
  rw [List.foldl_cons]
  exact ⟨h.2.2.1, h.2.2.2⟩

/-- C5 witness: concrete instance of the cancel-affordance invariant. -/
theorem C5_witness :
    countCancel (runToks pSmall [(['a'], false)]).messages = 1 ∧
      lastHasCancel (runToks pSmall [(['a'], false)]).messages :=
  C5_theorem.2.2 pSmall (['a'], false) [] (by decide)

/-- C9 (amended): the terminal flag becomes true once a Failure has been
processed (on_error, also used for cancellation) while at least one delivery
unit exists — always the case in a real job, since Outputter::new creates the
initial response (with no unit, on_error returns before setting the flag);
explicit finish leaves the flag unchanged; and once the flag is true,
new_token ignores the fragment, returning the state unchanged. -/
theorem C9_theorem :
    (∀ (em : List Char) (s : Outputter), s.messages ≠ [] →
      (on_error em s).in_terminal_state = true) ∧
      (∀ s : Outputter, (Outputter.finish s).in_terminal_state = s.in_terminal_state) ∧
      (∀ (p : Prompts) (s : Outputter) (t : List Char) (b : Bool),
        s.in_terminal_state = true → new_token p s t b = s) := by
  refine ⟨?_, fun s => (sync_fields _).2.2, ?_⟩
  · intro em s h
    unfold on_error
    dsimp only
    split
    · rename_i hemp
      have hlen0 : s.messages.length = 0 := by
        have hz := List.isEmpty_iff_length_eq_zero.mp hemp
        simpa using hz
      exact absurd (List.length_eq_zero.mp hlen0) h
    · rfl
  · intro p s t b h
    unfold new_token
    rw [h]
    simp

/-- C9 witness: a Failure processed on a fresh job sets the terminal flag and
further fragments are ignored. -/
theorem C9_witness :
    (on_error ['e'] (Outputter.new pSmall)).in_terminal_state = true ∧
      new_token pSmall (on_error ['e'] (Outputter.new pSmall)) ['a'] false =
        on_error ['e'] (Outputter.new pSmall) :=
  ⟨C9_theorem.1 ['e'] (Outputter.new pSmall) (by decide),
    C9_theorem.2.2 pSmall _ ['a'] false (by decide)⟩

/-- C9 counterexample: after an explicit finish the terminal flag is still
false and a further fragment is not ignored. -/
theorem C9_counterexample :
    (Outputter.finish (Outputter.new pSmall)).in_terminal_state = false ∧
      new_token pSmall (Outputter.finish (Outputter.new pSmall)) ['a'] false ≠
        Outputter.finish (Outputter.new pSmall) := by
  constructor
  · decide
  · decide

/-- C8: the cancellation poll drains every pending entry and reports whether
the job was among them; hence a second poll with no intervening cancel request
always reports false. -/
theorem C8_theorem (pending : List Nat) (message_id : Nat) :
    (drainAndCheck pending message_id).1 = pending.contains message_id ∧
      (drainAndCheck pending message_id).2 = [] ∧
      (drainAndCheck (drainAndCheck pending message_id).2 message_id).1 = false := by
  refine ⟨rfl, rfl, ?_⟩
  simp [drainAndCheck]

/-- The callback loop only ever appends text fragments to the channel. -/
theorem processResponses_delivered (cancelObserved : Nat → Bool) (aliveFor : Nat) :
    ∀ (rs : List InferenceResponse) (i : Nat) (ch : ChanState),
      ∃ ts : List (List Char),
        (processResponses cancelObserved aliveFor rs i ch).1.delivered =
          ch.delivered ++ ts.map GenToken.Token := by
  intro rs
  induction rs with
  | nil => intro i ch; exact ⟨[], by simp [processResponses]⟩
  | cons r rs ih =>
    intro i ch
    by_cases hc : cancelObserved i
    · exact ⟨[], by simp [processResponses, hc]⟩
    · cases r with
      | EotToken => simpa [processResponses, hc] using ih (i + 1) ch
      | SnapshotToken t | PromptToken t | InferredToken t =>
        by_cases hs : ch.attempts < aliveFor
        · obtain ⟨ts, hts⟩ := ih (i + 1)
            { delivered := ch.delivered ++ [GenToken.Token t], attempts := ch.attempts + 1 }
          refine ⟨t :: ts, ?_⟩
          simp only [processResponses, hc, Bool.false_eq_true, if_false, trySend, hs, if_pos,
            if_true] at hts ⊢
          simp only [hts]
          simp
        · exact ⟨[], by simp [processResponses, hc, trySend, hs]⟩

/-- After an abort caused by a failed send, the channel has outlived its
receiver: the attempt counter exceeds the liveness budget. -/
theorem processResponses_sendfail (cancelObserved : Nat → Bool) (aliveFor : Nat) :
    ∀ (rs : List InferenceResponse) (i : Nat) (ch : ChanState),
      (processResponses cancelObserved aliveFor rs i ch).2 =
        some (InferenceError.Custom failedSendMsg) →
      aliveFor < (processResponses cancelObserved aliveFor rs i ch).1.attempts := by
  intro rs
  induction rs with
  | nil => intro i ch h; simp [processResponses] at h
  | cons r rs ih =>
    intro i ch h
    by_cases hc : cancelObserved i
    · simp [processResponses, hc] at h
    · cases r with
      | EotToken =>
        simp only [processResponses, hc, Bool.false_eq_true, if_false] at h ⊢
        exact ih (i + 1) ch h
      | SnapshotToken t | PromptToken t | InferredToken t =>
        by_cases hs : ch.attempts < aliveFor
        · simp only [processResponses, hc, Bool.false_eq_true, if_false, trySend, hs,
            if_pos, if_true] at h ⊢
          exact ih (i + 1) _ h
        · simp only [processResponses, hc, Bool.false_eq_true, if_false, trySend, hs,
            if_neg, if_false] at h ⊢
          omega

/-- At most one successful send per poll: if the k-th poll would observe a
cancel, at most k items are ever delivered by the callback loop. -/
theorem processResponses_count (cancelObserved : Nat → Bool) (aliveFor k : Nat) :
    ∀ (rs : List InferenceResponse) (i : Nat) (ch : ChanState), i ≤ k →
      cancelObserved k = true →
      (processResponses cancelObserved aliveFor rs i ch).1.delivered.length ≤
        ch.delivered.length + (k - i) := by
  intro rs
  induction rs with
  | nil => intro i ch _ _; simp [processResponses]
  | cons r rs ih =>
    intro i ch hik hk
    by_cases hc : cancelObserved i
    · simp [processResponses, hc]
    · have hlt : i < k := by
        rcases Nat.lt_or_ge i k with h | h
        · exact h
        · have : i = k := le_antisymm hik h
          rw [this] at hc
          exact absurd hk hc
      cases r with
      | EotToken =>
        simp only [processResponses, hc, Bool.false_eq_true, if_false]
        calc (processResponses cancelObserved aliveFor rs (i + 1) ch).1.delivered.length
            ≤ ch.delivered.length + (k - (i + 1)) := ih (i + 1) ch hlt hk
          _ ≤ ch.delivered.length + (k - i) := by omega
      | SnapshotToken t | PromptToken t | InferredToken t =>
        by_cases hs : ch.attempts < aliveFor
        · simp only [processResponses, hc, Bool.false_eq_true, if_false, trySend, hs,
            if_pos, if_true]
          calc (processResponses cancelObserved aliveFor rs (i + 1)
                { delivered := ch.delivered ++ [GenToken.Token t],
                  attempts := ch.attempts + 1 }).1.delivered.length
              ≤ (ch.delivered ++ [GenToken.Token t]).length + (k - (i + 1)) :=
                ih (i + 1) _ hlt hk
            _ ≤ ch.delivered.length + (k - i) := by
                simp only [List.length_append, List.length_cons, List.length_nil]
                omega
        · simp only [processResponses, hc, Bool.false_eq_true, if_false, trySend, hs,
            if_neg, if_false]
          omega

/-- Everything the callback loop delivers beyond its start is a fragment. -/
theorem processResponses_fragments (cancelObserved : Nat → Bool) (aliveFor : Nat) :
    ∀ (rs : List InferenceResponse) (i : Nat) (ch : ChanState),
      (∀ t ∈ ch.delivered, isFragment t = true) →
      ∀ t ∈ (processResponses cancelObserved aliveFor rs i ch).1.delivered,
        isFragment t = true := by
  intro rs
  induction rs with
  | nil => intro i ch h; simpa [processResponses] using h
  | cons r rs ih =>
    intro i ch h
    by_cases hc : cancelObserved i
    · simpa [processResponses, hc] using h
    · cases r with
      | EotToken =>
        simp only [processResponses, hc, Bool.false_eq_true, if_false]
        exact ih (i + 1) ch h
      | SnapshotToken t | PromptToken t | InferredToken t =>
        by_cases hs : ch.attempts < aliveFor
        · simp only [processResponses, hc, Bool.false_eq_true, if_false, trySend, hs,
            if_pos, if_true]
          refine ih (i + 1) _ ?_
          intro v hv
          rcases List.mem_append.mp hv with hv | hv
          · exact h v hv
          · rcases List.mem_singleton.mp hv with rfl
            rfl
        · simp only [processResponses, hc, Bool.false_eq_true, if_false, trySend, hs,
            if_neg, if_false]
          exact h

/-- process_incoming_request returns the callback loop's channel state. -/
theorem process_incoming_request_fst (cancelObserved : Nat → Bool) (aliveFor : Nat)
    (rs : List InferenceResponse) (be : Option (List Char)) :
    (process_incoming_request cancelObserved aliveFor rs be).1 =
      (processResponses cancelObserved aliveFor rs 0 { delivered := [], attempts := 0 }).1 := by
  unfold process_incoming_request
  rcases hpr : processResponses cancelObserved aliveFor rs 0
      { delivered := [], attempts := 0 } with ⟨ch, err⟩
  cases err with
  | none => cases be <;> rfl
  | some e => rfl

/-- C3: the sequence delivered on a job's result channel is some fragments
followed by at most one Failure (so a Failure, when present, is the last item);
and if the k-th per-fragment cancellation poll observes a cancel, at most k
fragments are ever delivered (none after that poll). -/
theorem C3_theorem :
    (∀ (cancelObserved : Nat → Bool) (aliveFor : Nat) (rs : List InferenceResponse)
      (be : Option (List Char)),
      ∃ (ts : List (List Char)) (oe : Option InferenceError),
        runJob cancelObserved aliveFor rs be =
          ts.map GenToken.Token ++ oe.elim [] (fun er => [GenToken.Error er])) ∧
      (∀ (cancelObserved : Nat → Bool) (aliveFor : Nat) (rs : List InferenceResponse)
        (be : Option (List Char)) (k : Nat), cancelObserved k = true →
        ((runJob cancelObserved aliveFor rs be).filter isFragment).length ≤ k) := by
  constructor
  · intro cancelObserved aliveFor rs be
    obtain ⟨ts, hts⟩ := processResponses_delivered cancelObserved aliveFor rs 0
      { delivered := [], attempts := 0 }
    rw [List.nil_append] at hts
    unfold runJob process_incoming_request
    rcases hpr : processResponses cancelObserved aliveFor rs 0
        { delivered := [], attempts := 0 } with ⟨ch, err⟩
    rw [hpr] at hts
    cases err with
    | none =>
      cases be with
      | none => exact ⟨ts, none, by simpa using hts⟩
      | some m =>
        dsimp only
        unfold trySend
        split
        · exact ⟨ts, some (InferenceError.Custom m), by simpa using hts⟩
        · exact ⟨ts, none, by simpa using hts⟩
    | some e =>
      dsimp only
      unfold trySend
      split
      · exact ⟨ts, some e, by simpa using hts⟩
      · exact ⟨ts, none, by simpa using hts⟩
  · intro cancelObserved aliveFor rs be k hk
    have hcount := processResponses_count cancelObserved aliveFor k rs 0
      { delivered := [], attempts := 0 } (Nat.zero_le k) hk
    simp only [List.length_nil, Nat.zero_add, Nat.sub_zero] at hcount
    have hfrag := processResponses_fragments cancelObserved aliveFor rs 0
      { delivered := [], attempts := 0 } (by simp)
    unfold runJob process_incoming_request
    rcases hpr : processResponses cancelObserved aliveFor rs 0
        { delivered := [], attempts := 0 } with ⟨ch, err⟩
    rw [hpr] at hcount hfrag
    have hbase : (ch.delivered.filter isFragment).length ≤ k :=
      le_trans (List.length_filter_le isFragment ch.delivered) hcount
    cases err with
    | none =>
      cases be with
      | none => exact hbase
      | some m =>
        dsimp only
        unfold trySend
        split
        · simpa [List.filter_append, isFragment] using hbase
        · exact hbase
    | some e =>
      dsimp only
      unfold trySend
      split
      · simpa [List.filter_append, isFragment] using hbase
      · exact hbase

/-- C3 witness: with a cancel pending at the very first poll, no fragment at
all is delivered. -/
theorem C3_witness :
    ((runJob (fun _ => true) 5 [InferenceResponse.InferredToken ['a']] none).filter
      isFragment).length ≤ 0 :=
  C3_theorem.2 (fun _ => true) 5 [InferenceResponse.InferredToken ['a']] none 0 rfl

/-- C4: when the callback loop aborts because a fragment send failed (the
receiver is gone), the job's delivered output is exactly what was delivered
before the failure: generation stops, no Failure token reaches the channel,
and everything delivered is a plain fragment. -/
theorem C4_theorem (cancelObserved : Nat → Bool) (aliveFor : Nat)
    (rs : List InferenceResponse) (be : Option (List Char))
    (h : (processResponses cancelObserved aliveFor rs 0
      { delivered := [], attempts := 0 }).2 =
        some (InferenceError.Custom failedSendMsg)) :
    runJob cancelObserved aliveFor rs be =
      (processResponses cancelObserved aliveFor rs 0
        { delivered := [], attempts := 0 }).1.delivered ∧
      ∀ t ∈ runJob cancelObserved aliveFor rs be, isFragment t = true := by
  have hatt := processResponses_sendfail cancelObserved aliveFor rs 0
    { delivered := [], attempts := 0 } h
  have hfrag := processResponses_fragments cancelObserved aliveFor rs 0
    { delivered := [], attempts := 0 } (by simp)
  unfold runJob process_incoming_request
  rcases hpr : processResponses cancelObserved aliveFor rs 0
      { delivered := [], attempts := 0 } with ⟨ch, err⟩
  rw [hpr] at h hatt hfrag
  simp only at h hatt hfrag
  rw [h]
  dsimp only
  unfold trySend
  rw [if_neg (by omega)]
  exact ⟨rfl, hfrag⟩

/-- C4 witness: a receiver gone from the start yields an empty delivery with
no Failure. -/
theorem C4_witness :
    runJob (fun _ => false) 0 [InferenceResponse.InferredToken ['a']] none =
      (processResponses (fun _ => false) 0 [InferenceResponse.InferredToken ['a']] 0
        { delivered := [], attempts := 0 }).1.delivered ∧
      ∀ t ∈ runJob (fun _ => false) 0 [InferenceResponse.InferredToken ['a']] none,
        isFragment t = true :=
  C4_theorem (fun _ => false) 0 [InferenceResponse.InferredToken ['a']] none rfl

/-- stripPfx steps over an equal head character. -/
theorem stripPfx_cons_self (x : Char) (xs ys : List Char) :
    stripPfx (x :: xs) (x :: ys) = stripPfx xs ys := by
  simp [stripPfx]

/-- stripPfx fails on a differing head character. -/
theorem stripPfx_cons_ne (x y : Char) (xs ys : List Char) (h : x ≠ y) :
    stripPfx (x :: xs) (y :: ys) = none := by
  simp [stripPfx, h]

/-- stripPfx with the empty pattern returns the whole string. -/
theorem stripPfx_nil_pat (s : List Char) : stripPfx [] s = some s := rfl

/-- The long prompt echo used by the C5 counterexample. -/
def bigA : List Char := List.replicate 1495 'A'

/-- A template-mode Prompts whose processed prompt has a 1495-character first
word. -/
def pBig : Prompts := ⟨true, bigA ++ ' ' :: ['B'], ['u'], ['t']⟩

/-- First word of the markdown view after the fragment "A". -/
def wA : List Char := ['*', '*', 'A', '*', '*', '~', '~'] ++ List.replicate 1494 'A'

/-- Second word of the markdown view after the fragment "A". -/
def wB : List Char := ['B', '~', '~']

/-- bigA unfolded one character. -/
theorem bigA_cons : bigA = 'A' :: List.replicate 1494 'A' := by
  rw [bigA, show (1495 : Nat) = 1494 + 1 from rfl, List.replicate_succ]

/-- bigA unfolded two characters. -/
theorem bigA_cons2 : bigA = 'A' :: 'A' :: List.replicate 1493 'A' := by
  rw [bigA, show (1495 : Nat) = 1494 + 1 from rfl, List.replicate_succ,
    show (1494 : Nat) = 1493 + 1 from rfl, List.replicate_succ]

/-- The processed prompt of pBig is 1497 characters long. -/
theorem pBig_processed_length : pBig.processed.length = 1497 := by
  rw [show pBig.processed = bigA ++ ' ' :: ['B'] from rfl, List.length_append, bigA,
    List.length_replicate]
  rfl

/-- The processed prompt is no prefix of the one-character display "A". -/
theorem pBig_not_prefix_one : stripPfx pBig.processed ['A'] = none := by
  rw [stripPfx_eq_isPrefixOf, if_neg]
  intro h
  have hle := isPrefixOf_length_le _ _ h
  rw [pBig_processed_length] at hle
  simp only [List.length_cons, List.length_nil] at hle
  omega

/-- The processed prompt is no prefix of the display "AZ". -/
theorem pBig_not_prefix_two : stripPfx pBig.processed ['A', 'Z'] = none := by
  rw [stripPfx_eq_isPrefixOf, if_neg]
  intro h
  have hle := isPrefixOf_length_le _ _ h
  rw [pBig_processed_length] at hle
  simp only [List.length_cons, List.length_nil] at hle
  omega

/-- The markdown view after the first fragment "A": bold prefix, struck
remainder, one space. -/
theorem mark_one : make_markdown_message pBig ['A'] = wA ++ ' ' :: wB := by
  have h2 : stripPfx ['A'] pBig.processed =
      some (List.replicate 1494 'A' ++ ' ' :: ['B']) := by
    show stripPfx ['A'] (bigA ++ ' ' :: ['B']) = _
    rw [bigA_cons, List.cons_append, stripPfx_cons_self, stripPfx_nil_pat]
  simp only [make_markdown_message, show pBig.show_prompt_template = true from rfl,
    Bool.not_true, Bool.false_eq_true, if_false, pBig_not_prefix_one, h2]
  simp only [bold, strike, wA, wB, List.append_assoc, List.cons_append, List.nil_append,
    show ((['A'] : List Char) = []) = False from by simp, if_false]

/-- The markdown view after "AZ": reference mismatch, display verbatim. -/
theorem mark_two : make_markdown_message pBig ['A', 'Z'] = ['A', 'Z'] := by
  have h2 : stripPfx ['A', 'Z'] pBig.processed = none := by
    show stripPfx ['A', 'Z'] (bigA ++ ' ' :: ['B']) = none
    rw [bigA_cons2, List.cons_append, List.cons_append, stripPfx_cons_self,
      stripPfx_cons_ne 'Z' 'A' _ _ (by decide)]
  simp only [make_markdown_message, show pBig.show_prompt_template = true from rfl,
    Bool.not_true, Bool.false_eq_true, if_false, pBig_not_prefix_two, h2]

/-- The 1501-character first word exceeds the chunk threshold, so the view
splits into two chunks. -/
theorem chunks_one : chunkMessage (wA ++ ' ' :: wB) = [wA, wB] := by
  have hspA : ' ' ∉ wA := by
    rw [wA]
    intro h
    rcases List.mem_append.mp h with h | h
    · exact absurd h (by decide)
    · exact absurd (List.eq_of_mem_replicate h) (by decide)
  have hspB : ' ' ∉ wB := by decide
  have hlen : MESSAGE_CHUNK_SIZE < wA.length := by
    simp only [wA, MESSAGE_CHUNK_SIZE, List.length_append, List.length_replicate,
      List.length_cons, List.length_nil]
    omega
  unfold chunkMessage
  rw [splitSpace_append, splitSpace_of_no_space _ hspA, splitSpace_of_no_space _ hspB,
    List.singleton_append, List.foldl_cons, List.foldl_cons, List.foldl_nil, pushWord_nil]
  have hp := pushWord_snoc [] wA wB
  rw [List.nil_append] at hp
  rw [hp, if_pos hlen]
  rfl

/-- "AZ" is a single chunk. -/
theorem chunks_two : chunkMessage ['A', 'Z'] = [['A', 'Z']] := by decide

/-- The first fragment of the counterexample run, reduced to a sync pass. -/
theorem step_one : new_token pBig (Outputter.new pBig) ['A'] true =
    sync_messages_with_chunks
      { messages := setFirstCancel (Outputter.new pBig).messages,
        chunks := [wA, wB], message := ['A'], in_terminal_state := false } := by
  simp only [new_token, show (Outputter.new pBig).in_terminal_state = false from rfl,
    Bool.false_eq_true, if_false, show (Outputter.new pBig).message = [] from rfl,
    List.nil_append, if_true, mark_one, chunks_one]

/-- After the first fragment and its sync pass there are two units. -/
theorem step_one_len :
    (new_token pBig (Outputter.new pBig) ['A'] true).messages.length = 2 := by
  rw [step_one, sync_length_eq]
  · simp [Outputter.new, setFirstCancel]
  · simp [Outputter.new, setFirstCancel]

/-- The accumulated text after the first fragment. -/
theorem step_one_msg :
    (new_token pBig (Outputter.new pBig) ['A'] true).message = ['A'] := by
  rw [step_one]
  exact (sync_fields _).1

/-- The job is not terminal after the first fragment. -/
theorem step_one_term :
    (new_token pBig (Outputter.new pBig) ['A'] true).in_terminal_state = false := by
  rw [step_one]
  exact (sync_fields _).2.2

/-- The second fragment "Z" of any state that accumulated "A": the markdown
view shrinks to one chunk. -/
theorem step_two_gen (s1 : Outputter) (ht : s1.in_terminal_state = false)
    (hm : s1.message = ['A']) :
    new_token pBig s1 ['Z'] true =
      sync_messages_with_chunks
        { messages := s1.messages, chunks := [['A', 'Z']], message := ['A', 'Z'],
          in_terminal_state := false } := by
  simp only [new_token, ht, Bool.false_eq_true, if_false, hm, if_true,
    List.cons_append, List.nil_append, mark_two, chunks_two,
    show ((['A'] : List Char) = []) = False from by simp, if_false]

/-- C5 counterexample: at initialization there is one unit, no chunk, and no
cancel affordance although the job is not terminal; and after two fragments
against a template prompt with a 1495-character first word (the first
fragment matching the echo, the second diverging so the markdown view
shrinks), a synchronization pass ends with two units but a single chunk —
len(units) <= len(chunks) fails in both reachable states. -/
theorem C5_counterexample :
    (¬ (Outputter.new pBig).messages.length ≤ (Outputter.new pBig).chunks.length) ∧
      (Outputter.new pBig).in_terminal_state = false ∧
      countCancel (Outputter.new pBig).messages = 0 ∧
      (runToks pBig [(['A'], true), (['Z'], true)]).chunks.length <
        (runToks pBig [(['A'], true), (['Z'], true)]).messages.length := by
  refine ⟨?_, rfl, ?_, ?_⟩
  · simp [Outputter.new]
  · simp [Outputter.new, countCancel, cancelFlags]
  · have hrun : runToks pBig [(['A'], true), (['Z'], true)] =
        new_token pBig (new_token pBig (Outputter.new pBig) ['A'] true) ['Z'] true := by
      unfold runToks
      simp only [List.foldl_cons, List.foldl_nil]
    rw [hrun, step_two_gen _ step_one_term step_one_msg, (sync_fields _).2.1,
      sync_length_eq]
    · simp only [step_one_len, List.length_cons, List.length_nil]
      norm_num
    · intro he
      dsimp only at he
      have hl := step_one_len
      rw [he] at hl
      simp at hl
